import Mathlib

/-!
Shallow embedding of the streaming transcription control layer of the
audio-transcription web app: the sentence-split scanner, the rolling sample
buffer, the single-flight inference scheduler with its commit engine, and the
worklet voice-activity detector.  Text is modelled as `List Char` (the app's
strings are BMP text, where JS UTF-16 indexing and code-point indexing agree);
audio samples are modelled as `Int` stand-ins, since no control decision ever
inspects a sample's value.
-/

namespace Transcription

/-- Module constants from the app component. -/
def SAMPLE_RATE : Nat := 16000

def MAX_BUFFER_SECONDS : Nat := 28

def MAX_BUFFER_SAMPLES : Nat := SAMPLE_RATE * MAX_BUFFER_SECONDS

def MIN_COMMIT_SECONDS : Nat := 10

def MIN_COMMIT_SAMPLES : Nat := SAMPLE_RATE * MIN_COMMIT_SECONDS

def MAX_COMMIT_SECONDS : Nat := 25

def MAX_COMMIT_SAMPLES : Nat := SAMPLE_RATE * MAX_COMMIT_SECONDS

def INFERENCE_INTERVAL_MS : Nat := 2500

def MIN_REMAINING_CHARS : Nat := 15

/-- The ECMAScript whitespace class: the characters matched by the regex
class `\s` and stripped by `String.trim` (WhiteSpace plus LineTerminator). -/
def isWs (c : Char) : Bool :=
  let n := c.toNat
  n = 0x9 || n = 0xA || n = 0xB || n = 0xC || n = 0xD || n = 0x20 ||
    n = 0xA0 || n = 0x1680 || (0x2000 ≤ n && n ≤ 0x200A) ||
    n = 0x2028 || n = 0x2029 || n = 0x202F || n = 0x205F || n = 0x3000 ||
    n = 0xFEFF

/-- Sentence terminators: the regex class `[.!?]`. -/
def isTerm (c : Char) : Bool :=
  c.toNat = 0x2E || c.toNat = 0x21 || c.toNat = 0x3F

/-- Closing quote characters: the regex class of a double quote and an
apostrophe (code points 0x22 and 0x27, written twice in the source class). -/
def isQuote (c : Char) : Bool :=
  c.toNat = 0x22 || c.toNat = 0x27

/-- JS `String.trim` on a character list: drop leading and trailing
whitespace. -/
def trimChars (l : List Char) : List Char :=
  ((l.dropWhile isWs).reverse.dropWhile isWs).reverse

/-- Length of the maximal run of leading whitespace (the greedy `\s+`). -/
def wsRunLen (l : List Char) : Nat :=
  (l.takeWhile isWs).length

/-- Length of the regex match `[.!?]["'']?\s+` anchored at the head of `l`,
or `none` when the pattern does not match there.  When the optional quote is
present but no whitespace follows it, the regex backtracks to the no-quote
alternative, which then also fails because a quote character is not
whitespace. -/
def matchLenAt : List Char → Option Nat
  | [] => none
  | c :: rest =>
    if isTerm c then
      match rest with
      | [] => none
      | d :: rest2 =>
        if isQuote d then
          let w := wsRunLen rest2
          if w = 0 then none else some (2 + w)
        else
          let w := wsRunLen rest
          if w = 0 then none else some (1 + w)
    else none

/-- One `re.exec` loop of `findInternalSentenceSplit`: from the current
position, find the next match (advancing one character at a time when no
match is anchored here, exactly as the regex engine searches for the next
match start), record the position just past the match as the split candidate
whenever the remaining text, trimmed, is long enough, and resume scanning at
the end of the match (the regex `lastIndex`).  `fuel` is an upper bound on
the number of steps; each step consumes at least one character, so
`l.length < fuel` makes the fuel-exhausted branch unreachable. -/
def scanSplitAux : Nat → List Char → Nat → Int → Int
  | 0, _, _, acc => acc
  | fuel + 1, l, pos, acc =>
    match matchLenAt l with
    | some n =>
      let cand := pos + n
      let rest := l.drop n
      let acc' := if MIN_REMAINING_CHARS ≤ (trimChars rest).length
        then (cand : Int) else acc
      scanSplitAux fuel rest cand acc'
    | none =>
      match l with
      | [] => acc
      | _ :: t => scanSplitAux fuel t (pos + 1) acc

/-- `findInternalSentenceSplit(text)`: the last position just past an
internal sentence end (terminator, optional closing quote, whitespace) whose
remaining text, trimmed, has at least `MIN_REMAINING_CHARS` characters;
`-1` when there is none. -/
def findInternalSentenceSplit (l : List Char) : Int :=
  scanSplitAux (l.length + 1) l 0 (-1)

/-- `appendToBuffer(existing, incoming, maxSamples)`: concatenate and keep
only the trailing `maxSamples` samples on overflow. -/
def appendToBuffer (existing incoming : List Int) (maxSamples : Nat) : List Int :=
  let merged := existing ++ incoming
  if merged.length ≤ maxSamples then merged
  else merged.drop (merged.length - maxSamples)

/-- JS `array.slice(-k)`: for `k = 0` this is `slice(0)`, the whole array;
for `k > 0` it is the trailing `min k length` elements. -/
def jsSliceLast (l : List Int) (k : Nat) : List Int :=
  if k = 0 then l else l.drop (l.length - k)

/-- `Math.ceil(bufLen * (1 - splitPos / textLen))` computed exactly over the
rationals `ceil(bufLen * (textLen - splitPos) / textLen)`; the guard on
`textLen = 0` is unreachable at the call site (a positive split position
forces nonempty text). -/
def ceilKeep (bufLen splitPos textLen : Nat) : Nat :=
  if textLen = 0 then 0
  else (bufLen * (textLen - splitPos) + (textLen - 1)) / textLen

/-- The model lifecycle states of the app component. -/
inductive ModelState
  | idle
  | loading
  | ready
  | error
deriving DecidableEq, Repr

/-- The mutable session state of the component: transcript split, rolling
buffer, sample counters, scheduler flags, and lifecycle flags.  `outstanding`
is a ghost counter of TRANSCRIBE calls dispatched and not yet answered, used
to state the single-flight property; the code itself tracks it only through
`workerBusyRef` (`busy` here). -/
structure Session where
  modelState : ModelState
  committedText : List Char
  liveText : List Char
  buffer : List Int
  totalSamples : Nat
  lastCommitSamples : Nat
  queued : Bool
  busy : Bool
  shouldFinalize : Bool
  isRecording : Bool
  isCapturing : Bool
  lastInferenceAt : Nat
  errorMsg : Option String
  outstanding : Nat
deriving DecidableEq, Repr

/-- `prev ? prev + "\n\n" + seg : seg`: join a freshly committed segment onto
the committed text with a blank-line separator (empty `prev` is falsy). -/
def joinCommit (prev seg : List Char) : List Char :=
  if prev = [] then seg else prev ++ (String.data "\n\n") ++ seg

/-- `flushInferenceQueue`: dispatch a snapshot of the rolling buffer to the
worker when the model is ready, no call is busy, and a request is queued;
the queued flag is cleared before the empty-buffer check, so an empty buffer
consumes the queued request without dispatching.  Returns the new state and
the dispatched payload, if any. -/
def flushInferenceQueue (s : Session) : Session × Option (List Int) :=
  if s.modelState ≠ ModelState.ready then (s, none)
  else if s.busy || !s.queued then (s, none)
  else
    let s1 := { s with queued := false }
    if s1.buffer.length = 0 then (s1, none)
    else ({ s1 with busy := true, outstanding := s1.outstanding + 1 },
      some s1.buffer)

/-- `queueInference`: set the queued flag, then attempt a flush. -/
def queueInference (s : Session) : Session × Option (List Int) :=
  flushInferenceQueue { s with queued := true }

/-- `maybeQueueInference(force)`: forced triggers bypass the throttle;
unforced triggers are dropped (without setting `queued`) unless at least
`INFERENCE_INTERVAL_MS` elapsed since the last unforced fire. -/
def maybeQueueInference (s : Session) (force : Bool) (now : Nat) :
    Session × Option (List Int) :=
  if force then queueInference s
  else if now - s.lastInferenceAt < INFERENCE_INTERVAL_MS then (s, none)
  else queueInference { s with lastInferenceAt := now }

/-- `finalizeRecording`: append any non-empty trimmed live text to the
committed text, clear the live text and the buffer, and exit the recording
and finalize-pending states. -/
def finalizeRecording (s : Session) : Session :=
  let fl := trimChars s.liveText
  let s1 := if fl ≠ [] then
      { s with committedText := joinCommit s.committedText fl } else s
  { s1 with
    liveText := []
    buffer := []
    shouldFinalize := false
    isRecording := false }

/-- The tail of the `complete` handler shared by the non-commit paths: show
the whole result as live text (the untrimmed engine text), flush any queued
request, and finalize when a finalize request is pending and the flush left
neither a busy call nor a queued request. -/
def completeFallthrough (s : Session) (text : List Char) :
    Session × Option (List Int) :=
  let r := flushInferenceQueue { s with liveText := text }
  if r.1.shouldFinalize && !r.1.busy && !r.1.queued then
    (finalizeRecording r.1, r.2)
  else r

/-- The worker `complete` handler: clear the busy flag; when not finalizing,
either commit the prefix up to a qualifying internal sentence split (with
proportional buffer trim), or force-commit the whole text when the audio
since the last commit is overdue, or fall through to the live-text update,
flush, and finalize gate.  `now` is the current clock reading used to reset
the throttle timer. -/
def handleComplete (s : Session) (text : List Char) (now : Nat) :
    Session × Option (List Int) :=
  let s0 := { s with busy := false, outstanding := s.outstanding - 1 }
  if !s0.shouldFinalize then
    let samplesSinceCommit := s0.totalSamples - s0.lastCommitSamples
    let enoughAudio := MIN_COMMIT_SAMPLES ≤ samplesSinceCommit
    let overdue := MAX_COMMIT_SAMPLES ≤ samplesSinceCommit
    let t := trimChars text
    let splitPos := findInternalSentenceSplit t
    if enoughAudio ∧ 0 < splitPos then
      let p := splitPos.toNat
      let committable := trimChars (t.take p)
      let remaining := trimChars (t.drop p)
      let s1 := if committable ≠ [] then
          { s0 with committedText := joinCommit s0.committedText committable }
        else s0
      let samplesToKeep := ceilKeep s1.buffer.length p t.length
      (⟨{ s1 with
          buffer := jsSliceLast s1.buffer samplesToKeep
          lastCommitSamples := s1.totalSamples
          queued := false
          lastInferenceAt := now
          liveText := remaining }, none⟩ : Session × Option (List Int))
    else if overdue ∧ t ≠ [] then
      (⟨{ s0 with
          committedText := joinCommit s0.committedText t
          buffer := []
          lastCommitSamples := s0.totalSamples
          queued := false
          lastInferenceAt := now
          liveText := [] }, none⟩ : Session × Option (List Int))
    else completeFallthrough s0 text
  else completeFallthrough s0 text

/-- The worker `error` handler: record the error, move the model to the
error state, and clear the busy flag.  No flush is attempted and nothing is
re-dispatched. -/
def handleError (s : Session) (msg : String) : Session :=
  { s with
    errorMsg := some msg
    modelState := ModelState.error
    busy := false
    outstanding := s.outstanding - 1 }

/-- `stopRecording`: when capturing, stop capture, set the finalize-pending
flag, and issue one forced trigger. -/
def stopRecording (s : Session) : Session × Option (List Int) :=
  if !s.isCapturing then (s, none)
  else
    let s1 := { s with shouldFinalize := true, isCapturing := false }
    queueInference s1

/-- One audio block arriving on the worklet port while capturing: append the
(already downsampled) samples to the rolling buffer, count them, and issue a
throttled trigger. -/
def handlePcm (s : Session) (xs : List Int) (now : Nat) :
    Session × Option (List Int) :=
  if !s.isCapturing then (s, none)
  else
    let s1 := { s with
      buffer := appendToBuffer s.buffer xs MAX_BUFFER_SAMPLES
      totalSamples := s.totalSamples + xs.length }
    maybeQueueInference s1 false now

/-- A VAD pause signal while capturing: one forced trigger. -/
def handlePause (s : Session) : Session × Option (List Int) :=
  if !s.isCapturing then (s, none)
  else queueInference s

/-- The session-level events the control layer reacts to. -/
inductive SEvent
  | trigger
  | pcm (xs : List Int) (now : Nat)
  | pause
  | complete (text : List Char) (now : Nat)
  | fail (msg : String)
  | stop

/-- Dispatch one event to the corresponding handler.  `trigger` is a bare
scheduler trigger request (`queueInference`), the common path of both the
VAD pause signal and a forced stop-time request. -/
def step (s : Session) (e : SEvent) : Session × Option (List Int) :=
  match e with
  | SEvent.trigger => queueInference s
  | SEvent.pcm xs now => handlePcm s xs now
  | SEvent.pause => handlePause s
  | SEvent.complete text now => handleComplete s text now
  | SEvent.fail msg => (handleError s msg, none)
  | SEvent.stop => stopRecording s

/-- Run a list of events, collecting every dispatched payload in order. -/
def run (s : Session) : List SEvent → Session × List (List Int)
  | [] => (s, [])
  | e :: es =>
    ((run (step s e).1 es).1, (step s e).2.toList ++ (run (step s e).1 es).2)

/-- The session state right after `startRecording` resets the refs. -/
def initSession : Session :=
  { modelState := ModelState.ready
    committedText := []
    liveText := []
    buffer := []
    totalSamples := 0
    lastCommitSamples := 0
    queued := false
    busy := false
    shouldFinalize := false
    isRecording := true
    isCapturing := true
    lastInferenceAt := 0
    errorMsg := none
    outstanding := 0 }

/-- Configuration of the audio-capture worklet VAD.  The threshold is kept
as its square: the code compares `sqrt(sum/len) > θ`, which for nonnegative
quantities is equivalent to `sum/len > θ²`, letting the energy test live in
the rationals. -/
structure VadConfig where
  silenceThresholdSq : ℚ
  speechFramesRequired : Nat
  silenceFramesRequired : Nat
  cooldownFramesRequired : Nat
deriving Repr

/-- The constructor's frame counts for a given capture sample rate:
`ceil(rate*0.5/128)` silence frames, `ceil(rate*0.3/128)` speech frames,
`ceil(rate*3/128)` cooldown frames, and the squared RMS silence threshold
`0.015²` (the float literal 0.015 read as the decimal it denotes). -/
def vadConfigOfRate (rate : Nat) : VadConfig :=
  { silenceThresholdSq := (15 / 1000 : ℚ) ^ 2
    speechFramesRequired := (3 * rate + 1279) / 1280
    silenceFramesRequired := (rate + 255) / 256
    cooldownFramesRequired := (3 * rate + 127) / 128 }

/-- The VAD counters. -/
structure VadState where
  speechFrames : Nat
  silenceFrames : Nat
  cooldownFrames : Nat
deriving DecidableEq, Repr

/-- Outputs of one worklet `process` call: the forwarded raw block, if any,
and whether a `silence` (pause) message was posted. -/
structure VadOut where
  pcm : Option (List ℚ)
  pause : Bool
deriving DecidableEq, Repr

/-- `AudioCaptureProcessor.process` on one block: forward the raw block,
classify its energy, decrement the cooldown toward zero, and emit a pause
iff a sufficient speech run is followed by a sufficient silence run outside
the cooldown window.  An absent or empty input channel does nothing. -/
def vadProcess (cfg : VadConfig) (st : VadState) (block : List ℚ) :
    VadState × VadOut :=
  if block = [] then (st, { pcm := none, pause := false })
  else
    let sumSq := (block.map (fun x => x * x)).sum
    let meanSq := sumSq / (block.length : ℚ)
    let cd := if 0 < st.cooldownFrames then st.cooldownFrames - 1
      else st.cooldownFrames
    if cfg.silenceThresholdSq < meanSq then
      (⟨{ speechFrames := st.speechFrames + 1, silenceFrames := 0,
          cooldownFrames := cd }, { pcm := some block, pause := false }⟩ :
        VadState × VadOut)
    else
      let si := st.silenceFrames + 1
      if cfg.speechFramesRequired ≤ st.speechFrames ∧
          cfg.silenceFramesRequired ≤ si ∧ cd = 0 then
        (⟨{ speechFrames := 0, silenceFrames := 0,
            cooldownFrames := cfg.cooldownFramesRequired },
          { pcm := some block, pause := true }⟩ : VadState × VadOut)
      else
        (⟨{ speechFrames := st.speechFrames, silenceFrames := si,
            cooldownFrames := cd }, { pcm := some block, pause := false }⟩ :
          VadState × VadOut)

/-! ### Rolling buffer: bound and suffix invariant -/

/-- A single `appendToBuffer` never leaves more than `maxSamples` samples:
either the merged list already fits, or exactly the trailing `maxSamples`
samples are kept. -/
lemma appendToBuffer_length_le (e i : List Int) (m : Nat) :
    (appendToBuffer e i m).length ≤ m := by
  simp only [appendToBuffer]
  split
  · next h => exact h
  · next h =>
    rw [List.length_drop]
    omega

/-- The updated buffer is a suffix of the old buffer followed by the new
samples. -/
lemma appendToBuffer_suffix (e i : List Int) (m : Nat) :
    appendToBuffer e i m <:+ e ++ i := by
  simp only [appendToBuffer]
  split
  · exact List.suffix_refl _
  · exact List.drop_suffix _ _

/-- Folding a sequence of appends, the suffix invariant is preserved. -/
lemma foldl_appendToBuffer_suffix (blocks : List (List Int)) :
    ∀ b : List Int,
      (blocks.foldl (fun acc xs => appendToBuffer acc xs MAX_BUFFER_SAMPLES) b)
        <:+ b ++ blocks.flatten := by
  induction blocks with
  | nil => intro b; simp
  | cons x bs ih =>
    intro b
    simp only [List.foldl_cons, List.flatten_cons]
    have h1 := ih (appendToBuffer b x MAX_BUFFER_SAMPLES)
    have h2 : appendToBuffer b x MAX_BUFFER_SAMPLES ++ bs.flatten
        <:+ (b ++ x) ++ bs.flatten := by
      rcases appendToBuffer_suffix b x MAX_BUFFER_SAMPLES with ⟨u, hu⟩
      exact ⟨u, by rw [← List.append_assoc, hu]⟩
    calc (bs.foldl (fun acc xs => appendToBuffer acc xs MAX_BUFFER_SAMPLES)
        (appendToBuffer b x MAX_BUFFER_SAMPLES))
        <:+ appendToBuffer b x MAX_BUFFER_SAMPLES ++ bs.flatten := h1
      _ <:+ (b ++ x) ++ bs.flatten := h2
      _ = b ++ (x ++ bs.flatten) := by rw [List.append_assoc]

/-- C8: starting from the empty buffer, any sequence of appends through
`appendToBuffer` with the `MAX_BUFFER_SAMPLES` cap (28 s at 16 kHz = 448000
samples) leaves the rolling buffer no longer than the cap, and its content is
always a suffix of the concatenation of every sample ever appended — i.e. the
oldest samples are dropped first on overflow. -/
theorem rolling_buffer_bound_and_suffix (blocks : List (List Int)) :
    (blocks.foldl (fun acc xs => appendToBuffer acc xs MAX_BUFFER_SAMPLES)
      []).length ≤ MAX_BUFFER_SAMPLES ∧
    (blocks.foldl (fun acc xs => appendToBuffer acc xs MAX_BUFFER_SAMPLES) [])
      <:+ blocks.flatten := by
  refine ⟨?_, by simpa using foldl_appendToBuffer_suffix blocks []⟩
  cases blocks with
  | nil => simp [MAX_BUFFER_SAMPLES]
  | cons x bs =>
    simp only [List.foldl_cons]
    induction bs generalizing x with
    | nil => exact appendToBuffer_length_le _ _ _
    | cons y ys ih =>
      simp only [List.foldl_cons]
      simpa using ih _

/-! ### Voice activity detector -/

/-- C10: on each processed (nonempty) block, the VAD emits a pause — and then
zeroes both run counters and arms the cooldown — iff, after the block's
energy classification, the speech run reaches `speechFramesRequired`, the
silence run reaches `silenceFramesRequired`, and the (already decremented)
cooldown is zero; without a pause the cooldown keeps its decremented value;
the cooldown is decremented toward 0 on every invocation; and the raw block
is always forwarded downstream.  `silenceFramesRequired ≥ 1` holds for every
configuration the constructor can produce (a ceiling of a positive
quantity). -/
theorem vadProcess_spec (cfg : VadConfig) (st : VadState)
    (block : List ℚ) (hmin : 1 ≤ cfg.silenceFramesRequired)
    (hb : block ≠ []) :
    ((vadProcess cfg st block).2.pause = true ↔
      (cfg.speechFramesRequired ≤ (if cfg.silenceThresholdSq <
          ((block.map (fun x => x * x)).sum / (block.length : ℚ)) then
            st.speechFrames + 1 else st.speechFrames) ∧
        cfg.silenceFramesRequired ≤ (if cfg.silenceThresholdSq <
          ((block.map (fun x => x * x)).sum / (block.length : ℚ)) then
            0 else st.silenceFrames + 1) ∧
        st.cooldownFrames - 1 = 0)) ∧
    ((vadProcess cfg st block).2.pause = true →
      (vadProcess cfg st block).1 = ⟨0, 0, cfg.cooldownFramesRequired⟩) ∧
    ((vadProcess cfg st block).2.pause = false →
      (vadProcess cfg st block).1.cooldownFrames = st.cooldownFrames - 1) ∧
    (vadProcess cfg st block).2.pcm = some block := by
  have hcd : (if 0 < st.cooldownFrames then st.cooldownFrames - 1
      else st.cooldownFrames) = st.cooldownFrames - 1 := by
    split <;> omega
  unfold vadProcess
  rw [if_neg hb, hcd]
  by_cases hsp : cfg.silenceThresholdSq <
      ((block.map (fun x => x * x)).sum / (block.length : ℚ))
  · simp only [if_pos hsp]
    refine ⟨?_, by simp, by simp, by simp⟩
    constructor
    · intro h
      exact absurd h (by simp)
    · rintro ⟨-, h2, -⟩
      omega
  · simp only [if_neg hsp]
    by_cases hc : cfg.speechFramesRequired ≤ st.speechFrames ∧
        cfg.silenceFramesRequired ≤ st.silenceFrames + 1 ∧
        st.cooldownFrames - 1 = 0
    · simp [if_pos hc, hc]
    · simp [if_neg hc, hc]

/-- Witness for C10: a 48 kHz configuration (113 speech frames, 188 silence
frames required), a quiet block arriving after 113 speech frames and 187
silence frames with no cooldown, fires a pause and forwards the block. -/
theorem vadProcess_spec_witness :
    1 ≤ (vadConfigOfRate 48000).silenceFramesRequired ∧
    ([(1 / 1000 : ℚ)] ≠ ([] : List ℚ)) ∧
    (vadProcess (vadConfigOfRate 48000) ⟨113, 187, 0⟩
      [(1 / 1000 : ℚ)]).2.pause = true ∧
    (vadProcess (vadConfigOfRate 48000) ⟨113, 187, 0⟩
      [(1 / 1000 : ℚ)]).2.pcm = some [(1 / 1000 : ℚ)] := by
  have h := vadProcess_spec (vadConfigOfRate 48000) ⟨113, 187, 0⟩
    [(1 / 1000 : ℚ)] (by decide) (by simp)
  refine ⟨by decide, by simp, ?_, h.2.2.2⟩
  rw [h.1]
  refine ⟨?_, ?_, by decide⟩ <;>
    · rw [if_neg (by norm_num [vadConfigOfRate])]
      decide

/-! ### Inference scheduler: flush -/

/-- Counterexample to C4 as stated: with the engine ready, no call in
flight, a queued request, and an *empty* buffer, `flushInferenceQueue` is
not a no-op — it clears the queued flag (the clear happens before the
empty-buffer check), although it dispatches nothing. -/
theorem flush_clears_queued_on_empty_buffer :
    ({ initSession with queued := true } : Session).modelState =
        ModelState.ready ∧
    ({ initSession with queued := true } : Session).busy = false ∧
    ({ initSession with queued := true } : Session).queued = true ∧
    ({ initSession with queued := true } : Session).buffer = [] ∧
    (flushInferenceQueue { initSession with queued := true }).1 ≠
      ({ initSession with queued := true } : Session) ∧
    (flushInferenceQueue { initSession with queued := true }).2 = none := by
  refine ⟨rfl, rfl, rfl, rfl, ?_, rfl⟩
  intro h
  have := congrArg Session.queued h
  simp [flushInferenceQueue, initSession] at this

/-- C4 amended: `flushInferenceQueue` is a no-op unless the engine is ready,
no call is in flight, and `queued` is true; when those hold it clears
`queued`, and then — only if the buffer is non-empty — sets the in-flight
flag and dispatches the current buffer (a snapshot value, unaffected by
later buffer mutations); with an empty buffer it clears `queued` and
dispatches nothing. -/
theorem flushInferenceQueue_spec (s : Session) :
    (s.modelState ≠ ModelState.ready ∨ s.busy = true ∨ s.queued = false →
      flushInferenceQueue s = (s, none)) ∧
    (s.modelState = ModelState.ready → s.busy = false → s.queued = true →
      s.buffer ≠ [] →
      flushInferenceQueue s =
        ({ s with queued := false, busy := true, outstanding := s.outstanding + 1 }, some s.buffer)) ∧
    (s.modelState = ModelState.ready → s.busy = false → s.queued = true →
      s.buffer = [] →
      flushInferenceQueue s = ({ s with queued := false }, none)) := by
  refine ⟨?_, ?_, ?_⟩
  · rintro (h | h | h) <;>
      simp [flushInferenceQueue, h]
  · intro h1 h2 h3 h4
    simp [flushInferenceQueue, h1, h2, h3, List.length_eq_zero, h4]
  · intro h1 h2 h3 h4
    simp [flushInferenceQueue, h1, h2, h3, h4]

/-- Witness for C4's amended theorem: a ready, idle, queued session with a
one-sample buffer dispatches exactly that buffer. -/
theorem flushInferenceQueue_spec_witness :
    flushInferenceQueue { initSession with queued := true, buffer := [7] } =
      ({ initSession with queued := false, busy := true, buffer := [7], outstanding := 1 }, some [7]) := by
  have h := (flushInferenceQueue_spec
    { initSession with queued := true, buffer := [7] }).2.1 rfl rfl rfl
    (by simp)
  rw [h]
  rfl

/-! ### Error handling -/

/-- Counterexample to C6 as stated: after a TRANSCRIBE failure arriving
while a follow-up request is queued, no flush dispatch happens (neither at
the error nor on a subsequent trigger), because the handler moves the model
to the error state, which the flush guard rejects; the queued flag survives
untouched.  So a subsequent trigger cannot proceed and no immediate
re-flush takes place on the error response. -/
theorem transcribe_error_blocks_follow_up :
    (handleError { initSession with busy := true, queued := true, buffer := [5], outstanding := 1 } "boom").queued = true ∧
    (handleError { initSession with busy := true, queued := true, buffer := [5], outstanding := 1 } "boom").busy = false ∧
    (handleError { initSession with busy := true, queued := true, buffer := [5], outstanding := 1 } "boom").modelState = ModelState.error ∧
    (queueInference (handleError { initSession with busy := true, queued := true, buffer := [5], outstanding := 1 } "boom")).2 = none ∧
    (step (handleError { initSession with busy := true, queued := true, buffer := [5], outstanding := 1 } "boom") SEvent.trigger).2 = none := by
  refine ⟨rfl, rfl, rfl, ?_, ?_⟩ <;>
    simp [step, queueInference, flushInferenceQueue, handleError,
      initSession]

/-- C6 amended: a TRANSCRIBE failure is reported as an error event and
clears the in-flight flag, dispatches nothing, issues no retry, and leaves
the queued flag as it was — but it also moves the model to the error state,
so subsequent triggers only set `queued` and cannot dispatch; the
immediate re-flush that bypasses the throttle happens only on *successful*
responses (here: a non-committing success with a queued request and
non-empty buffer redispatches at once, whatever the throttle clock says). -/
theorem error_and_success_flush (s : Session) (msg : String)
    (text : List Char) (now : Nat) :
    ((step s (SEvent.fail msg)).1 = handleError s msg ∧
      (step s (SEvent.fail msg)).2 = none ∧
      (handleError s msg).busy = false ∧
      (handleError s msg).errorMsg = some msg ∧
      (handleError s msg).modelState = ModelState.error ∧
      (handleError s msg).queued = s.queued) ∧
    (∀ s2 : Session, s2.modelState = ModelState.error →
      queueInference s2 = ({ s2 with queued := true }, none)) ∧
    (s.shouldFinalize = false →
      s.totalSamples - s.lastCommitSamples < MIN_COMMIT_SAMPLES →
      s.modelState = ModelState.ready → s.queued = true → s.buffer ≠ [] →
      (handleComplete s text now).2 = some s.buffer) := by
  refine ⟨⟨rfl, rfl, rfl, rfl, rfl, rfl⟩, ?_, ?_⟩
  · intro s2 h2
    simp [queueInference, flushInferenceQueue, h2]
  · intro hfin hlt hready hq hb
    have hnotenough : ¬ (MIN_COMMIT_SAMPLES ≤
        s.totalSamples - s.lastCommitSamples) := by omega
    have hnotover : ¬ (MAX_COMMIT_SAMPLES ≤
        s.totalSamples - s.lastCommitSamples) := by
      simp only [MAX_COMMIT_SAMPLES, MIN_COMMIT_SAMPLES, SAMPLE_RATE,
        MAX_COMMIT_SECONDS, MIN_COMMIT_SECONDS] at *
      omega
    unfold handleComplete
    simp only [hfin, Bool.not_false, if_true]
    rw [if_neg (by intro h; exact hnotenough h.1),
      if_neg (by intro h; exact hnotover h.1)]
    unfold completeFallthrough
    simp only [flushInferenceQueue, hready, hq]
    simp [hb, List.length_eq_zero]

/-! ### Commit monotonicity -/

/-- Joining a segment extends the previous committed text on the right. -/
lemma joinCommit_eq_append (prev seg : List Char) :
    ∃ ext, joinCommit prev seg = prev ++ ext := by
  unfold joinCommit
  by_cases h : prev = []
  · exact ⟨seg, by simp [h]⟩
  · exact ⟨String.data "\n\n" ++ seg, by simp [h]⟩

/-- The flush path never touches the committed text. -/
lemma flush_committedText (s : Session) :
    (flushInferenceQueue s).1.committedText = s.committedText := by
  unfold flushInferenceQueue
  split
  · rfl
  split
  · rfl
  dsimp only
  split <;> rfl

/-- A trigger never touches the committed text. -/
lemma queueInference_committedText (s : Session) :
    (queueInference s).1.committedText = s.committedText :=
  flush_committedText _

/-- `finalizeRecording` leaves the committed text alone or appends one
non-empty, blank-line-joined segment. -/
lemma finalizeRecording_committedText (s : Session) :
    (finalizeRecording s).committedText = s.committedText ∨
      ∃ seg, seg ≠ [] ∧
        (finalizeRecording s).committedText = joinCommit s.committedText seg := by
  unfold finalizeRecording
  by_cases h : trimChars s.liveText ≠ []
  · exact Or.inr ⟨trimChars s.liveText, h, by simp [h]⟩
  · left
    simp [h]

/-- The shared result-handler tail leaves the committed text alone or
appends one non-empty segment. -/
lemma completeFallthrough_committedText (s : Session) (text : List Char) :
    (completeFallthrough s text).1.committedText = s.committedText ∨
      ∃ seg, seg ≠ [] ∧ (completeFallthrough s text).1.committedText =
        joinCommit s.committedText seg := by
  unfold completeFallthrough
  dsimp only
  split
  · have h := finalizeRecording_committedText
      (flushInferenceQueue { s with liveText := text }).1
    rw [flush_committedText] at h
    exact h
  · exact Or.inl (flush_committedText _)

/-- The complete handler leaves the committed text alone or appends one
non-empty segment. -/
lemma handleComplete_committedText (s : Session) (text : List Char)
    (now : Nat) :
    (handleComplete s text now).1.committedText = s.committedText ∨
      ∃ seg, seg ≠ [] ∧ (handleComplete s text now).1.committedText =
        joinCommit s.committedText seg := by
  unfold handleComplete
  dsimp only
  split
  · split
    · split
      · next hc => exact Or.inr ⟨_, hc, rfl⟩
      · exact Or.inl rfl
    · split
      · next hov => exact Or.inr ⟨_, hov.2, rfl⟩
      · exact completeFallthrough_committedText _ text
  · exact completeFallthrough_committedText _ text

/-- The throttled trigger never touches the committed text. -/
lemma maybeQueueInference_committedText (s : Session) (f : Bool) (now : Nat) :
    (maybeQueueInference s f now).1.committedText = s.committedText := by
  unfold maybeQueueInference
  split
  · exact queueInference_committedText s
  split
  · rfl
  · exact queueInference_committedText { s with lastInferenceAt := now }

/-- An audio block never touches the committed text. -/
lemma handlePcm_committedText (s : Session) (xs : List Int) (now : Nat) :
    (handlePcm s xs now).1.committedText = s.committedText := by
  unfold handlePcm
  split
  · rfl
  · exact maybeQueueInference_committedText _ _ _

/-- A VAD pause never touches the committed text. -/
lemma handlePause_committedText (s : Session) :
    (handlePause s).1.committedText = s.committedText := by
  unfold handlePause
  split
  · rfl
  · exact queueInference_committedText s

/-- A stop request never touches the committed text. -/
lemma stopRecording_committedText (s : Session) :
    (stopRecording s).1.committedText = s.committedText := by
  unfold stopRecording
  split
  · rfl
  · exact queueInference_committedText
      { s with shouldFinalize := true, isCapturing := false }

/-- C9: the committed transcript is append-only.  Every step of the session
(trigger, audio block, pause, result, error, stop) either leaves
`committedText` unchanged or extends it by one non-empty segment joined with
the blank-line separator (just the segment when it was empty); hence along
any event sequence the old committed text is a prefix of the new one, and a
committed segment is never edited or removed. -/
theorem committedText_append_only :
    (∀ (s : Session) (e : SEvent),
      (step s e).1.committedText = s.committedText ∨
      ∃ seg, seg ≠ [] ∧
        (step s e).1.committedText = joinCommit s.committedText seg) ∧
    (∀ (s : Session) (evs : List SEvent),
      ∃ ext, (run s evs).1.committedText = s.committedText ++ ext) := by
  have hstep : ∀ (s : Session) (e : SEvent),
      (step s e).1.committedText = s.committedText ∨
      ∃ seg, seg ≠ [] ∧
        (step s e).1.committedText = joinCommit s.committedText seg := by
    intro s e
    cases e with
    | trigger => exact Or.inl (queueInference_committedText s)
    | pcm xs now => exact Or.inl (handlePcm_committedText s xs now)
    | pause => exact Or.inl (handlePause_committedText s)
    | complete text now => exact handleComplete_committedText s text now
    | fail msg => exact Or.inl rfl
    | stop => exact Or.inl (stopRecording_committedText s)
  refine ⟨hstep, ?_⟩
  intro s evs
  induction evs generalizing s with
  | nil => exact ⟨[], by simp [run]⟩
  | cons e es ih =>
    rcases ih (step s e).1 with ⟨ext2, hext2⟩
    have h1 : ∃ ext1, (step s e).1.committedText = s.committedText ++ ext1 := by
      rcases hstep s e with h | ⟨seg, -, hseg⟩
      · exact ⟨[], by simp [h]⟩
      · rcases joinCommit_eq_append s.committedText seg with ⟨ext, hext⟩
        exact ⟨ext, by rw [hseg, hext]⟩
    rcases h1 with ⟨ext1, hext1⟩
    refine ⟨ext1 ++ ext2, ?_⟩
    show (run s (e :: es)).1.committedText = _
    unfold run
    dsimp only
    rw [hext2, hext1, List.append_assoc]

/-- Witness for C6's amended theorem: a ready, not-finalizing session with a
queued follow-up and fresh audio short of the commit threshold redispatches
its buffer immediately on a successful response. -/
theorem error_and_success_flush_witness :
    (handleComplete { initSession with queued := true, buffer := [3], totalSamples := 100 } [] 0).2 = some [3] := by
  exact (error_and_success_flush
    { initSession with queued := true, buffer := [3], totalSamples := 100 }
    "m" [] 0).2.2 rfl (by decide) rfl rfl (by simp)

/-! ### Single-flight discipline -/

/-- The scheduler invariant: never more than one dispatched, unanswered
TRANSCRIBE call, and the busy flag tracks it exactly. -/
def SchedInv (s : Session) : Prop :=
  s.outstanding ≤ 1 ∧ (s.busy = true ↔ s.outstanding = 1)

/-- Package the common case of the invariant. -/
lemma schedInv_mk (s : Session) (hb : s.busy = false)
    (ho : s.outstanding = 0) : SchedInv s :=
  ⟨by omega, by simp [hb, ho]⟩

/-- Flushing preserves the scheduler invariant: a dispatch only happens when
the busy flag is down, i.e. when nothing is outstanding. -/
lemma flush_schedInv (s : Session) (h : SchedInv s) :
    SchedInv (flushInferenceQueue s).1 := by
  unfold flushInferenceQueue
  split
  · exact h
  split
  · exact h
  next hng =>
    have hbusy : s.busy = false := by
      cases hb : s.busy
      · rfl
      · exact absurd (by simp [hb]) hng
    have hout : s.outstanding = 0 := by
      rcases h with ⟨hle, hiff⟩
      by_contra hne
      have h1 : s.outstanding = 1 := by omega
      rw [hiff.mpr h1] at hbusy
      exact Bool.noConfusion hbusy
    dsimp only
    split
    · exact ⟨by simp [hout], by simp [hbusy, hout]⟩
    · exact ⟨by simp [hout], by simp [hout]⟩

/-- A trigger preserves the scheduler invariant. -/
lemma queueInference_schedInv (s : Session) (h : SchedInv s) :
    SchedInv (queueInference s).1 :=
  flush_schedInv { s with queued := true } h

/-- Finalizing touches neither the busy flag nor the outstanding count. -/
lemma finalizeRecording_busy_outstanding (s : Session) :
    (finalizeRecording s).busy = s.busy ∧
    (finalizeRecording s).outstanding = s.outstanding := by
  unfold finalizeRecording
  dsimp only
  split <;> exact ⟨rfl, rfl⟩

/-- The result-handler tail preserves the scheduler invariant. -/
lemma completeFallthrough_schedInv (s : Session) (text : List Char)
    (h : SchedInv s) : SchedInv (completeFallthrough s text).1 := by
  unfold completeFallthrough
  dsimp only
  have hfl : SchedInv (flushInferenceQueue
      { s with liveText := text }).1 :=
    flush_schedInv { s with liveText := text } h
  split
  · rcases finalizeRecording_busy_outstanding
      (flushInferenceQueue { s with liveText := text }).1 with ⟨hb, ho⟩
    exact ⟨by rw [ho]; exact hfl.1, by rw [hb, ho]; exact hfl.2⟩
  · exact hfl

/-- The complete handler preserves the scheduler invariant. -/
lemma handleComplete_schedInv (s : Session) (text : List Char) (now : Nat)
    (h : SchedInv s) : SchedInv (handleComplete s text now).1 := by
  have hle := h.1
  have h0 : SchedInv ({ s with busy := false, outstanding := s.outstanding - 1 } : Session) :=
    schedInv_mk _ rfl (by show s.outstanding - 1 = 0; omega)
  unfold handleComplete
  dsimp only
  split
  · split
    · split
      · exact schedInv_mk _ rfl (by show s.outstanding - 1 = 0; omega)
      · exact schedInv_mk _ rfl (by show s.outstanding - 1 = 0; omega)
    · split
      · exact schedInv_mk _ rfl (by show s.outstanding - 1 = 0; omega)
      · exact completeFallthrough_schedInv _ text h0
  · exact completeFallthrough_schedInv _ text h0

/-- A throttled trigger preserves the scheduler invariant. -/
lemma maybeQueueInference_schedInv (s : Session) (f : Bool) (now : Nat)
    (h : SchedInv s) : SchedInv (maybeQueueInference s f now).1 := by
  unfold maybeQueueInference
  split
  · exact queueInference_schedInv s h
  split
  · exact h
  · exact queueInference_schedInv { s with lastInferenceAt := now } h

/-- Every session event preserves the scheduler invariant. -/
lemma step_schedInv (s : Session) (e : SEvent) (h : SchedInv s) :
    SchedInv (step s e).1 := by
  cases e with
  | trigger => exact queueInference_schedInv s h
  | pcm xs now =>
    show SchedInv (handlePcm s xs now).1
    unfold handlePcm
    split
    · exact h
    · exact maybeQueueInference_schedInv _ _ _ h
  | pause =>
    show SchedInv (handlePause s).1
    unfold handlePause
    split
    · exact h
    · exact queueInference_schedInv s h
  | complete text now => exact handleComplete_schedInv s text now h
  | fail msg =>
    exact schedInv_mk _ rfl (by show s.outstanding - 1 = 0; have := h.1; omega)
  | stop =>
    show SchedInv (stopRecording s).1
    unfold stopRecording
    split
    · exact h
    · exact queueInference_schedInv
        { s with shouldFinalize := true, isCapturing := false } h

/-- A run of events preserves the scheduler invariant. -/
lemma run_schedInv (evs : List SEvent) :
    ∀ s : Session, SchedInv s → SchedInv (run s evs).1 := by
  induction evs with
  | nil => intro s h; exact h
  | cons e es ih =>
    intro s h
    unfold run
    dsimp only
    exact ih (step s e).1 (step_schedInv s e h)

/-- A trigger arriving while a call is in flight only sets the queued flag
and dispatches nothing, in every model state. -/
lemma trigger_busy (s : Session) (h : s.busy = true) :
    queueInference s = ({ s with queued := true }, none) := by
  unfold queueInference flushInferenceQueue
  split
  · rfl
  split
  · rfl
  next hc => exact absurd (by simp [h]) hc

/-- Unfolding `run` on the empty event list. -/
lemma run_nil (s : Session) : run s [] = (s, []) := rfl

/-- Unfolding `run` on a cons cell. -/
lemma run_cons (s : Session) (e : SEvent) (es : List SEvent) :
    run s (e :: es) = ((run (step s e).1 es).1,
      (step s e).2.toList ++ (run (step s e).1 es).2) := rfl

/-- `step` on a bare trigger is `queueInference`. -/
lemma step_trigger (s : Session) :
    step s SEvent.trigger = queueInference s := rfl

/-- Runs decompose over concatenated event lists. -/
lemma run_append (s : Session) (es1 es2 : List SEvent) :
    run s (es1 ++ es2) = ((run (run s es1).1 es2).1,
      (run s es1).2 ++ (run (run s es1).1 es2).2) := by
  induction es1 generalizing s with
  | nil => simp [run_nil]
  | cons e es ih =>
    rw [List.cons_append, run_cons, run_cons, ih]
    dsimp only
    rw [List.append_assoc]

/-- Any number of triggers against an in-flight call collapse into the
queued flag: no state change beyond `queued := true`, and no dispatch. -/
lemma run_replicate_trigger (n : Nat) :
    ∀ s : Session, s.busy = true →
      (run s (List.replicate n SEvent.trigger)).1 =
        (if n = 0 then s else { s with queued := true }) ∧
      (run s (List.replicate n SEvent.trigger)).2 = [] := by
  induction n with
  | zero => intro s h; simp [run_nil]
  | succ n ih =>
    intro s h
    rw [List.replicate_succ, run_cons, step_trigger, trigger_busy s h]
    dsimp only
    have hb : ({ s with queued := true } : Session).busy = true := h
    rcases ih { s with queued := true } hb with ⟨ih1, ih2⟩
    refine ⟨?_, ?_⟩
    · rw [ih1, if_neg (Nat.succ_ne_zero n)]
      cases n with
      | zero => simp
      | succ m => rw [if_neg (Nat.succ_ne_zero m)]
    · rw [ih2]
      simp [Option.toList]

/-- C3: single-flight discipline.  (1) Along every event sequence from the
start of a recording session, at most one TRANSCRIBE call is ever
outstanding (the busy flag is raised exactly while one is, and a dispatch
happens only with the flag down).  (2) Any number of triggers arriving
while a call is in flight leave the session unchanged except for the single
queued flag, and dispatch nothing.  (3) Those coalesced triggers followed
by the in-flight call's completion produce at most one further dispatch in
total. -/
theorem single_flight :
    (∀ evs : List SEvent, (run initSession evs).1.outstanding ≤ 1) ∧
    (∀ (s : Session) (n : Nat), s.busy = true →
      (run s (List.replicate n SEvent.trigger)).1 =
        (if n = 0 then s else { s with queued := true }) ∧
      (run s (List.replicate n SEvent.trigger)).2 = []) ∧
    (∀ (s : Session) (n : Nat) (text : List Char) (now : Nat),
      s.busy = true →
      (run s (List.replicate n SEvent.trigger ++
        [SEvent.complete text now])).2.length ≤ 1) := by
  have hinit : SchedInv initSession := schedInv_mk _ rfl rfl
  refine ⟨?_, ?_, ?_⟩
  · intro evs
    exact (run_schedInv evs initSession hinit).1
  · intro s n h
    exact run_replicate_trigger n s h
  · intro s n text now h
    rw [run_append]
    dsimp only
    rw [(run_replicate_trigger n s h).1, (run_replicate_trigger n s h).2,
      List.nil_append, run_cons]
    dsimp only
    rw [run_nil]
    dsimp only
    cases (step (if n = 0 then s else { s with queued := true })
        (SEvent.complete text now)).2 <;> simp

/-- Witness for C3: a busy session absorbs three triggers and one
completion with at most one further dispatch. -/
theorem single_flight_witness :
    (run { initSession with busy := true, outstanding := 1 }
      (List.replicate 3 SEvent.trigger ++ [SEvent.complete [] 0])).2.length
      ≤ 1 :=
  single_flight.2.2 { initSession with busy := true, outstanding := 1 }
    3 [] 0 rfl

/-! ### Overdue force-commit -/

/-- C5: when a result is handled while not finalizing, with at least
`MAX_COMMIT_SAMPLES` (25 s at 16 kHz) of audio since the last commit, no
positive sentence split in the trimmed text, and the trimmed text non-empty,
the whole trimmed text is committed with the blank-line join, the buffer is
fully cleared, `lastCommitSamples` is reset to `totalSamples`, the queued
flag and throttle timer are cleared, and the live text is cleared; nothing
is dispatched by this branch. -/
theorem overdue_commit (s : Session) (text : List Char) (now : Nat)
    (hfin : s.shouldFinalize = false)
    (hover : MAX_COMMIT_SAMPLES ≤ s.totalSamples - s.lastCommitSamples)
    (hsplit : findInternalSentenceSplit (trimChars text) ≤ 0)
    (hne : trimChars text ≠ []) :
    handleComplete s text now =
      ({ s with
        busy := false
        outstanding := s.outstanding - 1
        committedText := joinCommit s.committedText (trimChars text)
        buffer := []
        lastCommitSamples := s.totalSamples
        queued := false
        lastInferenceAt := now
        liveText := [] }, none) := by
  unfold handleComplete
  dsimp only
  split
  · split
    · next hc => exact absurd hc.2 (by omega)
    · split
      · rfl
      · next hov =>
        exact absurd ⟨hover, hne⟩ hov
  · next hsf => simp [hfin] at hsf

/-- Witness for C5: a session 25 s past its last commit receiving
boundary-free text "uh huh okay" force-commits it all and clears the
buffer. -/
theorem overdue_commit_witness :
    handleComplete { initSession with totalSamples := 400000, buffer := [1, 2] } (String.data "uh huh okay") 5 =
      ({ initSession with totalSamples := 400000, committedText := String.data "uh huh okay", buffer := [], lastCommitSamples := 400000, lastInferenceAt := 5 }, none) := by
  have h := overdue_commit
    { initSession with totalSamples := 400000, buffer := [1, 2] }
    (String.data "uh huh okay") 5 rfl (by decide) (by decide) (by decide)
  rw [h]
  rfl

/-! ### Finalize gate -/

/-- Fields that `flushInferenceQueue` never touches. -/
lemma flush_preserves (s : Session) :
    (flushInferenceQueue s).1.isRecording = s.isRecording ∧
    (flushInferenceQueue s).1.liveText = s.liveText ∧
    (flushInferenceQueue s).1.shouldFinalize = s.shouldFinalize ∧
    (flushInferenceQueue s).1.buffer = s.buffer ∧
    (flushInferenceQueue s).1.modelState = s.modelState := by
  unfold flushInferenceQueue
  split
  · exact ⟨rfl, rfl, rfl, rfl, rfl⟩
  split
  · exact ⟨rfl, rfl, rfl, rfl, rfl⟩
  dsimp only
  split <;> exact ⟨rfl, rfl, rfl, rfl, rfl⟩

/-- The dispatching case of the flush, for reuse across proofs. -/
lemma flush_dispatch (s : Session) (h1 : s.modelState = ModelState.ready)
    (h2 : s.busy = false) (h3 : s.queued = true) (h4 : s.buffer ≠ []) :
    flushInferenceQueue s =
      ({ s with queued := false, busy := true, outstanding := s.outstanding + 1 }, some s.buffer) := by
  unfold flushInferenceQueue
  rw [if_neg (by simp [h1]), if_neg (by simp [h2, h3])]
  dsimp only
  rw [if_neg (by simp [List.length_eq_zero, h4])]

/-- The flush is a no-op when nothing is queued. -/
lemma flush_not_queued (s : Session) (h : s.queued = false) :
    flushInferenceQueue s = (s, none) := by
  unfold flushInferenceQueue
  split
  · rfl
  · rw [if_pos (by simp [h])]

/-- `finalizeRecording` in closed form. -/
lemma finalizeRecording_spec (s : Session) :
    finalizeRecording s = { s with
      committedText := if trimChars s.liveText = [] then s.committedText
        else joinCommit s.committedText (trimChars s.liveText)
      liveText := []
      buffer := []
      shouldFinalize := false
      isRecording := false } := by
  unfold finalizeRecording
  dsimp only
  split
  · rfl
  · next h =>
    rw [if_pos (show trimChars s.liveText = [] by simpa using h)]

/-- `completeFallthrough` in closed form (a zeta-expansion of its body). -/
lemma completeFallthrough_eq (s : Session) (text : List Char) :
    completeFallthrough s text =
      (if ((flushInferenceQueue { s with liveText := text }).1.shouldFinalize &&
          !(flushInferenceQueue { s with liveText := text }).1.busy &&
          !(flushInferenceQueue { s with liveText := text }).1.queued) = true
        then (finalizeRecording
            (flushInferenceQueue { s with liveText := text }).1,
          (flushInferenceQueue { s with liveText := text }).2)
        else flushInferenceQueue { s with liveText := text }) := rfl

/-- When a finalize request is pending, the complete handler runs the
shared fallthrough tail on the busy-cleared state. -/
lemma handleComplete_of_finalize (s : Session) (text : List Char) (now : Nat)
    (hfin : s.shouldFinalize = true) :
    handleComplete s text now =
      completeFallthrough { s with busy := false, outstanding := s.outstanding - 1 } text := by
  unfold handleComplete
  dsimp only
  rw [if_neg (by simp [hfin])]

/-- Without a pending finalize request, the complete handler never leaves
the recording state. -/
lemma handleComplete_isRecording_of_not_finalize (s : Session)
    (text : List Char) (now : Nat) (hfin : s.shouldFinalize = false) :
    (handleComplete s text now).1.isRecording = s.isRecording := by
  unfold handleComplete
  dsimp only
  rw [if_pos (by simp [hfin])]
  split
  · split <;> rfl
  split
  · rfl
  · unfold completeFallthrough
    dsimp only
    rw [if_neg ?hgate]
    case hgate =>
      simp only [Bool.and_eq_true]
      rintro ⟨⟨h1, -⟩, -⟩
      rw [(flush_preserves _).2.2.1] at h1
      simp [hfin] at h1
    exact (flush_preserves _).1

/-- A result handled with the finalize flag up and nothing queued
finalizes at once: recording ends and nothing is dispatched. -/
lemma handleComplete_finalizes_now (R : Session) (text2 : List Char)
    (now2 : Nat) (h1 : R.shouldFinalize = true) (h2 : R.queued = false) :
    (handleComplete R text2 now2).1.isRecording = false ∧
    (handleComplete R text2 now2).2 = none := by
  have hY : flushInferenceQueue { { R with busy := false, outstanding := R.outstanding - 1 } with liveText := text2 } = ({ { R with busy := false, outstanding := R.outstanding - 1 } with liveText := text2 }, none) :=
    flush_not_queued _ (by exact h2)
  rw [handleComplete_of_finalize R text2 now2 h1, completeFallthrough_eq, hY]
  dsimp only
  rw [if_pos (by simp [h1, h2])]
  exact ⟨rfl, rfl⟩

/-- C7: the finalize gate.  (a) A stop request while capturing raises the
finalize-pending flag.  (b) A handled result finalizes the session only
when the flag is pending and, after the post-result flush, neither the
in-flight nor the queued flag is up; finalization then commits any
non-empty live text (the freshly shown result text), clears the live text
and the buffer, exits the recording state, and lowers the pending flag.
(c) Error responses never finalize.  (d) A result arriving while a
follow-up request is still queued (engine ready, buffer non-empty)
redispatches instead of finalizing, and the next result finalizes without
a further dispatch — finalization is deferred by exactly one round. -/
theorem finalize_gate :
    (∀ s : Session, s.isCapturing = true →
      (stopRecording s).1.shouldFinalize = true) ∧
    (∀ (s : Session) (text : List Char) (now : Nat), s.isRecording = true →
      (handleComplete s text now).1.isRecording = false →
      s.shouldFinalize = true ∧
      (handleComplete s text now).1.busy = false ∧
      (handleComplete s text now).1.queued = false ∧
      (handleComplete s text now).1.liveText = [] ∧
      (handleComplete s text now).1.buffer = [] ∧
      (handleComplete s text now).1.shouldFinalize = false ∧
      (handleComplete s text now).1.committedText =
        (if trimChars text = [] then s.committedText
          else joinCommit s.committedText (trimChars text))) ∧
    (∀ (s : Session) (msg : String),
      (handleError s msg).isRecording = s.isRecording) ∧
    (∀ (s : Session) (text text2 : List Char) (now now2 : Nat),
      s.shouldFinalize = true → s.busy = true → s.queued = true →
      s.modelState = ModelState.ready → s.buffer ≠ [] →
      s.isRecording = true →
      (handleComplete s text now).1.isRecording = true ∧
      (handleComplete s text now).1.busy = true ∧
      (handleComplete s text now).1.queued = false ∧
      (handleComplete s text now).2 = some s.buffer ∧
      (handleComplete (handleComplete s text now).1 text2 now2).1.isRecording
        = false ∧
      (handleComplete (handleComplete s text now).1 text2 now2).2 = none) := by
  refine ⟨?_, ?_, ?_, ?_⟩
  · intro s h
    unfold stopRecording
    rw [if_neg (by simp [h])]
    exact (flush_preserves _).2.2.1
  · intro s text now hrec hfinz
    by_cases hsf : s.shouldFinalize = true
    · rw [handleComplete_of_finalize s text now hsf,
        completeFallthrough_eq] at hfinz ⊢
      by_cases hgate : ((flushInferenceQueue { { s with busy := false, outstanding := s.outstanding - 1 } with liveText := text }).1.shouldFinalize &&
          !(flushInferenceQueue { { s with busy := false, outstanding := s.outstanding - 1 } with liveText := text }).1.busy &&
          !(flushInferenceQueue { { s with busy := false, outstanding := s.outstanding - 1 } with liveText := text }).1.queued) = true
      · rw [if_pos hgate] at hfinz ⊢
        simp only [Bool.and_eq_true, Bool.not_eq_true'] at hgate
        obtain ⟨⟨hg1, hg2⟩, hg3⟩ := hgate
        refine ⟨hsf, ?_, ?_, rfl, rfl, rfl, ?_⟩
        · show (finalizeRecording _).busy = false
          rw [(finalizeRecording_busy_outstanding _).1]
          exact hg2
        · show (finalizeRecording _).queued = false
          rw [finalizeRecording_spec]
          exact hg3
        · show (finalizeRecording _).committedText = _
          rw [finalizeRecording_spec]
          show (if trimChars (flushInferenceQueue _).1.liveText = [] then
              (flushInferenceQueue _).1.committedText
            else joinCommit (flushInferenceQueue _).1.committedText
              (trimChars (flushInferenceQueue _).1.liveText)) = _
          rw [(flush_preserves _).2.1, flush_committedText]
      · rw [if_neg hgate] at hfinz
        rw [(flush_preserves _).1] at hfinz
        have hcontra : s.isRecording = false := hfinz
        rw [hrec] at hcontra
        exact absurd hcontra (by simp)
    · have hsf' : s.shouldFinalize = false := by
        cases hx : s.shouldFinalize
        · rfl
        · exact absurd hx hsf
      rw [handleComplete_isRecording_of_not_finalize s text now hsf',
        hrec] at hfinz
      exact absurd hfinz (by simp)
  · intro s msg
    rfl
  · intro s text text2 now now2 hsf hbusy hq hready hb hrec
    have hflush := flush_dispatch
      ({ { s with busy := false, outstanding := s.outstanding - 1 } with liveText := text } : Session)
      hready rfl hq hb
    have hr1 : handleComplete s text now =
        (({ { { s with busy := false, outstanding := s.outstanding - 1 } with liveText := text } with queued := false, busy := true, outstanding := s.outstanding - 1 + 1 } : Session), some s.buffer) := by
      rw [handleComplete_of_finalize s text now hsf, completeFallthrough_eq,
        hflush]
      dsimp only
      rw [if_neg (by simp)]
    rw [hr1]
    have hsecond := handleComplete_finalizes_now
      ({ { { s with busy := false, outstanding := s.outstanding - 1 } with liveText := text } with queued := false, busy := true, outstanding := s.outstanding - 1 + 1 } : Session)
      text2 now2 (by exact hsf) rfl
    exact ⟨hrec, rfl, rfl, rfl, hsecond.1, hsecond.2⟩

/-- Witness for C7: stop raises the flag; an in-flight completion with a
queued follow-up on a one-sample buffer redispatches, and the next
completion finalizes. -/
theorem finalize_gate_witness :
    (stopRecording initSession).1.shouldFinalize = true ∧
    (handleComplete { initSession with shouldFinalize := true, busy := true, queued := true, buffer := [7], outstanding := 1 } (String.data "a") 1).2 = some [7] ∧
    (handleComplete (handleComplete { initSession with shouldFinalize := true, busy := true, queued := true, buffer := [7], outstanding := 1 } (String.data "a") 1).1 (String.data "b") 2).1.isRecording = false := by
  have h4 := finalize_gate.2.2.2
    { initSession with shouldFinalize := true, busy := true, queued := true, buffer := [7], outstanding := 1 }
    (String.data "a") (String.data "b") 1 2 rfl rfl rfl rfl (by simp) rfl
  exact ⟨finalize_gate.1 initSession rfl, h4.2.2.2.1, h4.2.2.2.2.1⟩

/-! ### Sentence-split scanner: character classes and trim -/

/-- Whitespace characters are not sentence terminators. -/
lemma isTerm_eq_false_of_isWs {c : Char} (h : isWs c = true) :
    isTerm c = false := by
  simp only [isWs, Bool.or_eq_true, decide_eq_true_eq, Bool.and_eq_true] at h
  simp only [isTerm, Bool.or_eq_false_iff, decide_eq_false_iff_not]
  omega

/-- Quote characters are not sentence terminators. -/
lemma isTerm_eq_false_of_isQuote {c : Char} (h : isQuote c = true) :
    isTerm c = false := by
  simp only [isQuote, Bool.or_eq_true, decide_eq_true_eq] at h
  simp only [isTerm, Bool.or_eq_false_iff, decide_eq_false_iff_not]
  omega

/-- Whitespace characters are not quotes. -/
lemma isQuote_eq_false_of_isWs {c : Char} (h : isWs c = true) :
    isQuote c = false := by
  simp only [isWs, Bool.or_eq_true, decide_eq_true_eq, Bool.and_eq_true] at h
  simp only [isQuote, Bool.or_eq_false_iff, decide_eq_false_iff_not]
  omega

/-- The head surviving a `dropWhile` fails the predicate. -/
lemma dropWhile_head_false (p : Char → Bool) :
    ∀ (l : List Char) {y ys}, l.dropWhile p = y :: ys → p y = false := by
  intro l
  induction l with
  | nil => intro y ys h; exact absurd h (by simp)
  | cons a t ih =>
    intro y ys h
    rw [List.dropWhile_cons] at h
    split at h
    · exact ih h
    · next hpa =>
      cases h
      cases hp : p a
      · rfl
      · exact absurd hp hpa

/-- `takeWhile` swallows a prefix that satisfies the predicate wholesale. -/
lemma takeWhile_append_all (p : Char → Bool) (u v : List Char)
    (hu : ∀ x ∈ u, p x = true) :
    (u ++ v).takeWhile p = u ++ v.takeWhile p := by
  induction u with
  | nil => simp
  | cons a t ih =>
    rw [List.cons_append, List.takeWhile_cons,
      if_pos (hu a (by simp)), ih (fun x hx => hu x (by simp [hx]))]
    rfl

/-- `dropWhile` runs through a prefix that satisfies the predicate. -/
lemma dropWhile_append_all (p : Char → Bool) (u v : List Char)
    (hu : ∀ x ∈ u, p x = true) :
    (u ++ v).dropWhile p = v.dropWhile p := by
  induction u with
  | nil => simp
  | cons a t ih =>
    rw [List.cons_append, List.dropWhile_cons, if_pos (hu a (by simp)),
      ih (fun x hx => hu x (by simp [hx]))]

/-- Dropping the `takeWhile` prefix leaves the `dropWhile` suffix. -/
lemma drop_length_takeWhile (p : Char → Bool) (l : List Char) :
    l.drop (l.takeWhile p).length = l.dropWhile p := by
  have h := List.drop_left (l.takeWhile p) (l.dropWhile p)
  rw [List.takeWhile_append_dropWhile] at h
  exact h

/-- `dropWhile` is idempotent. -/
lemma dropWhile_idem (p : Char → Bool) (l : List Char) :
    (l.dropWhile p).dropWhile p = l.dropWhile p := by
  cases h : l.dropWhile p with
  | nil => rfl
  | cons y ys =>
    rw [List.dropWhile_cons, if_neg (by simp [dropWhile_head_false p l h])]

/-- Trimming ignores leading whitespace. -/
lemma trimChars_wsPrefix (u v : List Char) (hu : ∀ x ∈ u, isWs x = true) :
    trimChars (u ++ v) = trimChars v := by
  unfold trimChars
  rw [dropWhile_append_all isWs u v hu]

/-- Trimming after a left trim is plain trimming. -/
lemma trimChars_dropWhile (l : List Char) :
    trimChars (l.dropWhile isWs) = trimChars l := by
  unfold trimChars
  rw [dropWhile_idem]

/-- The trimmed text is no longer than the text. -/
lemma trimChars_length_le (l : List Char) :
    (trimChars l).length ≤ l.length := by
  unfold trimChars
  rw [List.length_reverse]
  calc ((l.dropWhile isWs).reverse.dropWhile isWs).length
      ≤ (l.dropWhile isWs).reverse.length :=
        (List.dropWhile_suffix isWs).length_le
    _ = (l.dropWhile isWs).length := List.length_reverse _
    _ ≤ l.length := (List.dropWhile_suffix isWs).length_le

/-- The head of a trimmed text is not whitespace. -/
lemma trimChars_head_not_ws (l : List Char) {y : Char}
    (hy : (trimChars l).head? = some y) : isWs y = false := by
  unfold trimChars at hy
  rw [List.head?_reverse] at hy
  rcases List.dropWhile_suffix (l := (l.dropWhile isWs).reverse) isWs
    with ⟨x, hx⟩
  have hne : (l.dropWhile isWs).reverse.dropWhile isWs ≠ [] := by
    intro hnil
    rw [hnil] at hy
    exact Option.noConfusion hy
  have h2 : ((l.dropWhile isWs).reverse).getLast? = some y := by
    rw [← hx, List.getLast?_append_of_ne_nil x hne]
    exact hy
  rw [List.getLast?_reverse] at h2
  cases hdw : l.dropWhile isWs with
  | nil =>
    rw [hdw] at h2
    exact absurd h2 (by simp)
  | cons a t =>
    rw [hdw] at h2
    simp only [List.head?_cons, Option.some_inj] at h2
    rw [← h2]
    exact dropWhile_head_false isWs l hdw

/-- A trimmed text is empty iff the text is all whitespace. -/
lemma trimChars_eq_nil_iff (l : List Char) :
    trimChars l = [] ↔ ∀ x ∈ l, isWs x = true := by
  unfold trimChars
  rw [List.reverse_eq_nil_iff, List.dropWhile_eq_nil_iff]
  constructor
  · intro h x hx
    by_cases hw : isWs x = true
    · exact hw
    · have hxd : x ∈ l.dropWhile isWs := by
        have hsplit := (List.takeWhile_append_dropWhile isWs l).symm
        rw [hsplit] at hx
        rcases List.mem_append.1 hx with hx1 | hx2
        · exact absurd (List.mem_takeWhile_imp hx1) hw
        · exact hx2
      exact h x (by simp [hxd])
  · intro h x hx
    exact h x ((List.dropWhile_suffix isWs).subset (by simpa using hx))

/-! ### Sentence-split scanner: anchored match structure -/

/-- Unfolding the anchored match on a two-or-more-character text. -/
lemma matchLenAt_cons_cons (c d : Char) (rest2 : List Char) :
    matchLenAt (c :: d :: rest2) =
      (if isTerm c then
        (if isQuote d then
          (if wsRunLen rest2 = 0 then none else some (2 + wsRunLen rest2))
        else
          (if wsRunLen (d :: rest2) = 0 then none
            else some (1 + wsRunLen (d :: rest2))))
      else none) := rfl

/-- The anchored match fails on a single character. -/
lemma matchLenAt_single (c : Char) : matchLenAt [c] = none := by
  rw [show matchLenAt [c] = if isTerm c = true then none else none from rfl]
  split <;> rfl

/-- The anchored match at a terminator with no quote: one plus the
whitespace run. -/
lemma matchLenAt_cons_no_quote (c w0 : Char) (tl : List Char)
    (hc : isTerm c = true) (hq : isQuote w0 = false)
    (hw : ¬ wsRunLen (w0 :: tl) = 0) :
    matchLenAt (c :: w0 :: tl) = some (1 + wsRunLen (w0 :: tl)) := by
  rw [matchLenAt_cons_cons, if_pos hc, if_neg (by simp [hq]), if_neg hw]

/-- The anchored match at a terminator with a quote: two plus the
whitespace run. -/
lemma matchLenAt_cons_quote (c d : Char) (tl : List Char)
    (hc : isTerm c = true) (hd : isQuote d = true)
    (hw : ¬ wsRunLen tl = 0) :
    matchLenAt (c :: d :: tl) = some (2 + wsRunLen tl) := by
  rw [matchLenAt_cons_cons, if_pos hc, if_pos hd, if_neg hw]

/-- A successful anchored match decomposes into a terminator, an optional
quote, a non-empty maximal whitespace run, and the remainder. -/
lemma matchLenAt_some_decomp {l : List Char} {n : Nat}
    (h : matchLenAt l = some n) :
    ∃ c q ws rest, l = c :: (q ++ (ws ++ rest)) ∧ isTerm c = true ∧
      (q = [] ∨ ∃ d, q = [d] ∧ isQuote d = true) ∧
      ws ≠ [] ∧ (∀ x ∈ ws, isWs x = true) ∧
      n = 1 + q.length + ws.length := by
  match l with
  | [] => exact absurd h (by simp [matchLenAt])
  | [c] =>
    rw [matchLenAt_single] at h
    exact absurd h (by simp)
  | c :: d :: rest2 =>
    rw [matchLenAt_cons_cons] at h
    by_cases hc : isTerm c = true
    · rw [if_pos hc] at h
      by_cases hd : isQuote d = true
      · rw [if_pos hd] at h
        by_cases hw : wsRunLen rest2 = 0
        · rw [if_pos hw] at h
          exact absurd h (by simp)
        · rw [if_neg hw] at h
          refine ⟨c, [d], rest2.takeWhile isWs, rest2.dropWhile isWs,
            ?_, hc, Or.inr ⟨d, rfl, hd⟩, ?_, ?_, ?_⟩
          · rw [List.singleton_append,
              List.takeWhile_append_dropWhile]
          · intro hnil
            rw [wsRunLen, hnil] at hw
            exact hw rfl
          · intro x hx
            exact List.mem_takeWhile_imp hx
          · have h2 := Option.some_inj.1 h
            rw [wsRunLen] at h2
            simp only [List.length_singleton]
            omega
      · rw [if_neg hd] at h
        by_cases hw : wsRunLen (d :: rest2) = 0
        · rw [if_pos hw] at h
          exact absurd h (by simp)
        · rw [if_neg hw] at h
          refine ⟨c, [], (d :: rest2).takeWhile isWs,
            (d :: rest2).dropWhile isWs, ?_, hc, Or.inl rfl, ?_, ?_, ?_⟩
          · rw [List.nil_append, List.takeWhile_append_dropWhile]
          · intro hnil
            rw [wsRunLen, hnil] at hw
            exact hw rfl
          · intro x hx
            exact List.mem_takeWhile_imp hx
          · have h2 := Option.some_inj.1 h
            rw [wsRunLen] at h2
            simp only [List.length_nil]
            omega
    · rw [if_neg hc] at h
      exact absurd h (by simp)

/-- An anchored match is at least two characters long and fits in the
text. -/
lemma matchLenAt_bounds {l : List Char} {n : Nat}
    (h : matchLenAt l = some n) : 2 ≤ n ∧ n ≤ l.length := by
  rcases matchLenAt_some_decomp h with
    ⟨c, q, ws, rest, heq, -, -, hws, -, hn⟩
  have hws1 : 1 ≤ ws.length := by
    cases ws
    · exact absurd rfl hws
    · simp
  constructor
  · omega
  · rw [heq]
    simp only [List.length_cons, List.length_append]
    omega

/-- No anchored match starts at a non-terminator head. -/
lemma matchLenAt_none_head {l : List Char}
    (h : ∀ y, l.head? = some y → isTerm y = false) : matchLenAt l = none := by
  match l with
  | [] => rfl
  | [c] => exact matchLenAt_single c
  | c :: d :: rest2 =>
    rw [matchLenAt_cons_cons, if_neg (by simp [h c rfl])]

/-- No anchored match starts strictly inside another anchored match: all its
interior characters are quotes or whitespace, never terminators. -/
lemma matchLenAt_interior {l : List Char} {n : Nat}
    (h : matchLenAt l = some n) (i : Nat) (h1 : 1 ≤ i) (h2 : i < n) :
    matchLenAt (l.drop i) = none := by
  rcases matchLenAt_some_decomp h with
    ⟨c, q, ws, rest, heq, -, hq, -, hall, hn⟩
  apply matchLenAt_none_head
  intro y hy
  rw [List.head?_drop] at hy
  have hmem : y ∈ q ++ ws := by
    have hy2 : (q ++ ws)[i - 1]? = some y := by
      rw [heq] at hy
      match i, h1 with
      | j + 1, _ =>
        simp only [List.getElem?_cons_succ] at hy
        rw [show q ++ (ws ++ rest) = (q ++ ws) ++ rest from
          (List.append_assoc q ws rest).symm, List.getElem?_append,
          if_pos (show j < (q ++ ws).length by
            simp only [List.length_append]; omega)] at hy
        simpa using hy
    exact List.getElem?_mem hy2
  rcases List.mem_append.1 hmem with hyq | hyws
  · rcases hq with hq0 | ⟨d, hqd, hdq⟩
    · rw [hq0] at hyq
      exact absurd hyq (by simp)
    · rw [hqd] at hyq
      simp only [List.mem_singleton] at hyq
      rw [hyq]
      exact isTerm_eq_false_of_isQuote hdq
  · exact isTerm_eq_false_of_isWs (hall y hyws)

/-- Completeness: any spec-shaped boundary at the head of the text yields an
anchored match at least as long, reaching the same trimmed remainder. -/
lemma matchLenAt_complete (c : Char) (q ws rest : List Char)
    (hc : isTerm c = true)
    (hq : q = [] ∨ ∃ d, q = [d] ∧ isQuote d = true)
    (hws : ws ≠ []) (hall : ∀ x ∈ ws, isWs x = true) :
    ∃ m, matchLenAt (c :: (q ++ (ws ++ rest))) = some m ∧
      1 + q.length + ws.length ≤ m ∧
      m ≤ (c :: (q ++ (ws ++ rest))).length ∧
      trimChars ((c :: (q ++ (ws ++ rest))).drop m) = trimChars rest := by
  have hrunlen : wsRunLen (ws ++ rest) = ws.length + wsRunLen rest := by
    rw [wsRunLen, takeWhile_append_all isWs ws rest hall,
      List.length_append, wsRunLen]
  have hws1 : 1 ≤ ws.length := by
    cases ws
    · exact absurd rfl hws
    · simp
  have hdropdw :
      trimChars ((ws ++ rest).drop (wsRunLen (ws ++ rest))) =
        trimChars rest := by
    rw [wsRunLen, drop_length_takeWhile,
      dropWhile_append_all isWs ws rest hall, trimChars_dropWhile]
  have hrunle : wsRunLen (ws ++ rest) ≤ ws.length + rest.length := by
    have h2 := congrArg List.length
      (List.takeWhile_append_dropWhile isWs (ws ++ rest))
    rw [List.length_append, List.length_append] at h2
    rw [wsRunLen]
    omega
  rcases hq with hq0 | ⟨d, hqd, hdq⟩
  · subst hq0
    cases hwse : ws with
    | nil => exact absurd hwse hws
    | cons w0 ws' =>
      subst hwse
      have hw0 : isWs w0 = true := hall w0 (by simp)
      have hrunlen' : wsRunLen (w0 :: (ws' ++ rest)) =
          (w0 :: ws').length + wsRunLen rest := hrunlen
      have hrunle' : wsRunLen (w0 :: (ws' ++ rest)) ≤
          (w0 :: ws').length + rest.length := hrunle
      refine ⟨1 + wsRunLen (w0 :: (ws' ++ rest)), ?_, ?_, ?_, ?_⟩
      · show matchLenAt (c :: w0 :: (ws' ++ rest)) = _
        exact matchLenAt_cons_no_quote c w0 (ws' ++ rest) hc
          (isQuote_eq_false_of_isWs hw0) (by omega)
      · simp only [List.length_nil, List.length_cons]
        simp only [List.length_cons] at hrunlen'
        omega
      · simp only [List.length_cons, List.nil_append, List.length_append]
        simp only [List.length_cons] at hrunle'
        omega
      · show trimChars (List.drop (1 + wsRunLen (w0 :: (ws' ++ rest)))
          (c :: w0 :: (ws' ++ rest))) = trimChars rest
        rw [Nat.add_comm 1 _]
        exact hdropdw
  · subst hqd
    refine ⟨2 + wsRunLen (ws ++ rest), ?_, ?_, ?_, ?_⟩
    · show matchLenAt (c :: d :: (ws ++ rest)) = _
      exact matchLenAt_cons_quote c d (ws ++ rest) hc hdq (by omega)
    · simp only [List.length_singleton]
      omega
    · simp only [List.length_cons, List.singleton_append,
        List.length_append]
      omega
    · show trimChars (List.drop (2 + wsRunLen (ws ++ rest))
        (c :: d :: (ws ++ rest))) = trimChars rest
      rw [Nat.add_comm 2 _]
      exact hdropdw

/-! ### Sentence-split scanner: scan characterization -/

/-- `p` is the end offset of some anchored regex match in `l`. -/
def CandAt (l : List Char) (p : Nat) : Prop :=
  ∃ i n, matchLenAt (l.drop i) = some n ∧ p = i + n

/-- The remainder past offset `p`, trimmed, is long enough to accept the
split. -/
def QualAt (l : List Char) (p : Nat) : Prop :=
  MIN_REMAINING_CHARS ≤ (trimChars (l.drop p)).length

/-- No candidate ends in the empty text. -/
lemma candAt_nil (p : Nat) : ¬ CandAt [] p := by
  rintro ⟨i, n, hm, -⟩
  rw [List.drop_nil, show matchLenAt [] = none from rfl] at hm
  exact Option.noConfusion hm

/-- Splitting the candidates of a text whose head anchors a match: the
match end itself, or a candidate of the text past the match. -/
lemma candAt_match_iff {l : List Char} {n : Nat}
    (hm : matchLenAt l = some n) (p : Nat) :
    CandAt l p ↔ (p = n ∨ ∃ q, CandAt (l.drop n) q ∧ p = n + q) := by
  constructor
  · rintro ⟨i, m, him, hp⟩
    rcases Nat.lt_or_ge i 1 with hi0 | hi1
    · left
      have hi : i = 0 := by omega
      rw [hi, List.drop_zero] at him
      rw [him] at hm
      have := Option.some_inj.1 hm
      omega
    · rcases Nat.lt_or_ge i n with hin | hni
      · exact absurd him (by
          rw [matchLenAt_interior hm i hi1 hin]
          simp)
      · right
        refine ⟨(i - n) + m, ⟨i - n, m, ?_, rfl⟩, by omega⟩
        rw [List.drop_drop]
        rw [show n + (i - n) = i from by omega]
        exact him
  · rintro (hp | ⟨q, ⟨i, m, him, hq⟩, hp⟩)
    · exact ⟨0, n, by simpa using hm, by omega⟩
    · refine ⟨n + i, m, ?_, by omega⟩
      rw [← List.drop_drop]
      exact him
/-- Splitting the candidates of a text whose head anchors no match. -/
lemma candAt_cons_iff {c : Char} {t : List Char}
    (hm : matchLenAt (c :: t) = none) (p : Nat) :
    CandAt (c :: t) p ↔ ∃ q, CandAt t q ∧ p = 1 + q := by
  constructor
  · rintro ⟨i, m, him, hp⟩
    rcases Nat.lt_or_ge i 1 with hi0 | hi1
    · have hi : i = 0 := by omega
      rw [hi, List.drop_zero, hm] at him
      exact Option.noConfusion him
    · refine ⟨(i - 1) + m, ⟨i - 1, m, ?_, rfl⟩, by omega⟩
      rw [show (c :: t).drop i = t.drop (i - 1) from by
        match i, hi1 with
        | j + 1, _ => simp]  at him
      exact him
  · rintro ⟨q, ⟨i, m, him, hq⟩, hp⟩
    refine ⟨1 + i, m, ?_, by omega⟩
    rw [show (c :: t).drop (1 + i) = t.drop i from by
      rw [Nat.add_comm]
      simp]
    exact him

/-- Qualification transfers along a drop. -/
lemma qualAt_drop (l : List Char) (n q : Nat) :
    QualAt l (n + q) ↔ QualAt (l.drop n) q := by
  unfold QualAt
  rw [List.drop_drop]

/-- One unfolding of the scan step. -/
lemma scanSplitAux_succ_eq (fuel : Nat) (l : List Char) (pos : Nat)
    (acc : Int) :
    scanSplitAux (fuel + 1) l pos acc =
      (match matchLenAt l with
        | some n => scanSplitAux fuel (l.drop n) (pos + n)
            (if MIN_REMAINING_CHARS ≤ (trimChars (l.drop n)).length
              then ((pos + n : Nat) : Int) else acc)
        | none =>
          match l with
          | [] => acc
          | _ :: t => scanSplitAux fuel t (pos + 1) acc) := rfl

/-- Unfolding the scan step on an anchored match. -/
lemma scanSplitAux_succ_some {l : List Char} {n : Nat}
    (hm : matchLenAt l = some n) (fuel pos : Nat) (acc : Int) :
    scanSplitAux (fuel + 1) l pos acc =
      scanSplitAux fuel (l.drop n) (pos + n)
        (if MIN_REMAINING_CHARS ≤ (trimChars (l.drop n)).length
          then ((pos + n : Nat) : Int) else acc) := by
  rw [scanSplitAux_succ_eq, hm]

/-- Unfolding the scan step on the empty text. -/
lemma scanSplitAux_succ_nil (fuel pos : Nat) (acc : Int) :
    scanSplitAux (fuel + 1) [] pos acc = acc := rfl

/-- Unfolding the scan step when no match anchors at the head. -/
lemma scanSplitAux_succ_cons {c : Char} {t : List Char}
    (hm : matchLenAt (c :: t) = none) (fuel pos : Nat) (acc : Int) :
    scanSplitAux (fuel + 1) (c :: t) pos acc =
      scanSplitAux fuel t (pos + 1) acc := by
  rw [scanSplitAux_succ_eq, hm]

/-- The scan invariant: starting at absolute position `pos` with best-so-far
`acc ≤ pos`, the scan returns either `acc` or a qualifying candidate, its
result dominates `acc` and every qualifying candidate of the remaining
text. -/
lemma scanSplitAux_spec :
    ∀ (fuel : Nat) (l : List Char) (pos : Nat) (acc : Int),
    l.length < fuel → acc ≤ (pos : Int) →
    ((scanSplitAux fuel l pos acc = acc ∨
      ∃ p : Nat, CandAt l p ∧ QualAt l p ∧
        scanSplitAux fuel l pos acc = ((pos + p : Nat) : Int)) ∧
     acc ≤ scanSplitAux fuel l pos acc ∧
     ∀ p : Nat, CandAt l p → QualAt l p →
       ((pos + p : Nat) : Int) ≤ scanSplitAux fuel l pos acc) := by
  intro fuel
  induction fuel with
  | zero =>
    intro l pos acc hf
    exact absurd hf (by omega)
  | succ fuel ih =>
    intro l pos acc hf hacc
    cases hm : matchLenAt l with
    | some n =>
      have hnb := matchLenAt_bounds hm
      have hstep := scanSplitAux_succ_some hm fuel pos acc
      have hfuel2 : (l.drop n).length < fuel := by
        rw [List.length_drop]
        omega
      have hacc2 : (if MIN_REMAINING_CHARS ≤ (trimChars (l.drop n)).length
          then ((pos + n : Nat) : Int) else acc) ≤ ((pos + n : Nat) : Int) := by
        split
        · exact le_refl _
        · calc acc ≤ (pos : Int) := hacc
            _ ≤ ((pos + n : Nat) : Int) := by
              push_cast
              omega
      rcases ih (l.drop n) (pos + n) _ hfuel2 hacc2 with ⟨ih1, ih2, ih3⟩
      rw [hstep]
      by_cases hqn : MIN_REMAINING_CHARS ≤ (trimChars (l.drop n)).length
      · rw [if_pos hqn] at ih1 ih2 ih3 ⊢
        refine ⟨?_, ?_, ?_⟩
        · rcases ih1 with h1 | ⟨q, hcq, hqq, hval⟩
          · right
            exact ⟨n, (candAt_match_iff hm n).2 (Or.inl rfl),
              hqn, by rw [h1]⟩
          · right
            refine ⟨n + q, (candAt_match_iff hm (n + q)).2
              (Or.inr ⟨q, hcq, rfl⟩), (qualAt_drop l n q).2 hqq, ?_⟩
            rw [hval]
            congr 1
            omega
        · calc acc ≤ (pos : Int) := hacc
            _ ≤ ((pos + n : Nat) : Int) := by push_cast; omega
            _ ≤ _ := ih2
        · intro p hcp hqp
          rcases (candAt_match_iff hm p).1 hcp with hp | ⟨q, hcq, hp⟩
          · rw [hp]
            exact ih2
          · rw [hp]
            have := ih3 q hcq ((qualAt_drop l n q).1 (hp ▸ hqp))
            calc ((pos + (n + q) : Nat) : Int)
                = ((pos + n + q : Nat) : Int) := by congr 1; omega
              _ ≤ _ := this
      · rw [if_neg hqn] at ih1 ih2 ih3 ⊢
        refine ⟨?_, ih2, ?_⟩
        · rcases ih1 with h1 | ⟨q, hcq, hqq, hval⟩
          · exact Or.inl h1
          · right
            refine ⟨n + q, (candAt_match_iff hm (n + q)).2
              (Or.inr ⟨q, hcq, rfl⟩), (qualAt_drop l n q).2 hqq, ?_⟩
            rw [hval]
            congr 1
            omega
        · intro p hcp hqp
          rcases (candAt_match_iff hm p).1 hcp with hp | ⟨q, hcq, hp⟩
          · exact absurd (hp ▸ hqp) hqn
          · rw [hp]
            have := ih3 q hcq ((qualAt_drop l n q).1 (hp ▸ hqp))
            calc ((pos + (n + q) : Nat) : Int)
                = ((pos + n + q : Nat) : Int) := by congr 1; omega
              _ ≤ _ := this
    | none =>
      cases l with
      | nil =>
        have hstep := scanSplitAux_succ_nil fuel pos acc
        rw [hstep]
        exact ⟨Or.inl rfl, le_refl _,
          fun p hcp _ => absurd hcp (candAt_nil p)⟩
      | cons c t =>
        have hstep := scanSplitAux_succ_cons hm fuel pos acc
        have hfuel2 : t.length < fuel := by
          simp only [List.length_cons] at hf
          omega
        have hacc2 : acc ≤ ((pos + 1 : Nat) : Int) := by
          calc acc ≤ (pos : Int) := hacc
            _ ≤ ((pos + 1 : Nat) : Int) := by push_cast; omega
        rcases ih t (pos + 1) acc hfuel2 hacc2 with ⟨ih1, ih2, ih3⟩
        rw [hstep]
        refine ⟨?_, ih2, ?_⟩
        · rcases ih1 with h1 | ⟨q, hcq, hqq, hval⟩
          · exact Or.inl h1
          · right
            refine ⟨1 + q, (candAt_cons_iff hm (1 + q)).2 ⟨q, hcq, rfl⟩,
              (qualAt_drop (c :: t) 1 q).2 (by simpa using hqq), ?_⟩
            rw [hval]
            congr 1
            omega
        · intro p hcp hqp
          rcases (candAt_cons_iff hm p).1 hcp with ⟨q, hcq, hp⟩
          have hqq : QualAt t q := by
            have := (qualAt_drop (c :: t) 1 q).1 (hp ▸ hqp)
            simpa using this
          have := ih3 q hcq hqq
          rw [hp]
          calc ((pos + (1 + q) : Nat) : Int)
              = ((pos + 1 + q : Nat) : Int) := by congr 1; omega
            _ ≤ _ := this

/-! ### Sentence-split scanner: spec-level characterization -/

/-- The scanner returns `-1` and no qualifying candidate exists, or it
returns the greatest qualifying candidate. -/
lemma findInternalSentenceSplit_cases (l : List Char) :
    (findInternalSentenceSplit l = -1 ∧
      ∀ p : Nat, CandAt l p → ¬ QualAt l p) ∨
    (∃ p : Nat, findInternalSentenceSplit l = (p : Int) ∧ CandAt l p ∧
      QualAt l p ∧ ∀ q : Nat, CandAt l q → QualAt l q → q ≤ p) := by
  have hspec := scanSplitAux_spec (l.length + 1) l 0 (-1)
    (by omega) (by norm_num)
  rcases hspec with ⟨h1, -, h3⟩
  rcases h1 with h1 | ⟨p, hcp, hqp, hval⟩
  · left
    refine ⟨h1, ?_⟩
    intro p hcp hqp
    have := h3 p hcp hqp
    rw [h1] at this
    have hge : (0 : Int) ≤ ((0 + p : Nat) : Int) := by positivity
    omega
  · right
    refine ⟨p, ?_, hcp, hqp, ?_⟩
    · rw [show findInternalSentenceSplit l =
        scanSplitAux (l.length + 1) l 0 (-1) from rfl, hval]
      congr 1
      omega
    · intro q hcq hqq
      have hle := h3 q hcq hqq
      rw [hval] at hle
      have hle2 : (q : Int) ≤ (p : Int) := by push_cast at hle; omega
      exact_mod_cast hle2

/-- A spec-level sentence boundary at offset `p`: a terminator, an optional
closing quote, then at least one whitespace character, ending just before
offset `p`. -/
def SpecBoundary (t : List Char) (p : Nat) : Prop :=
  ∃ (pre : List Char) (c : Char) (q ws rest : List Char),
    t = pre ++ c :: (q ++ (ws ++ rest)) ∧
    isTerm c = true ∧
    (q = [] ∨ ∃ d, q = [d] ∧ isQuote d = true) ∧
    ws ≠ [] ∧ (∀ x ∈ ws, isWs x = true) ∧
    p = pre.length + 1 + q.length + ws.length

/-- Soundness: every anchored-match candidate is a spec boundary. -/
lemma specBoundary_of_candAt {l : List Char} {p : Nat} (h : CandAt l p) :
    SpecBoundary l p := by
  rcases h with ⟨i, n, him, hp⟩
  rcases matchLenAt_some_decomp him with
    ⟨c, q, ws, rest, heq, hc, hq, hws, hall, hn⟩
  have hi : i ≤ l.length := by
    by_contra hgt
    rw [List.drop_eq_nil_of_le (by omega)] at heq
    exact List.noConfusion heq
  refine ⟨l.take i, c, q, ws, rest, ?_, hc, hq, hws, hall, ?_⟩
  · rw [← heq, List.take_append_drop]
  · rw [List.length_take]
    omega

/-- Completeness: every spec boundary extends to an anchored-match candidate
at least as far right, with the same trimmed remainder. -/
lemma candAt_of_specBoundary {l : List Char} {p : Nat}
    (h : SpecBoundary l p) :
    ∃ pm : Nat, CandAt l pm ∧ p ≤ pm ∧
      trimChars (l.drop p) = trimChars (l.drop pm) := by
  rcases h with ⟨pre, c, q, ws, rest, heq, hc, hq, hws, hall, hp⟩
  have hdropi : l.drop pre.length = c :: (q ++ (ws ++ rest)) := by
    rw [heq]
    exact List.drop_left pre _
  rcases matchLenAt_complete c q ws rest hc hq hws hall with
    ⟨m, hmm, hmge, hmle, htrim⟩
  refine ⟨pre.length + m, ⟨pre.length, m, ?_, rfl⟩, by omega, ?_⟩
  · rw [hdropi]
    exact hmm
  · have hdp : l.drop p = rest := by
      rw [heq, hp]
      rw [show pre.length + 1 + q.length + ws.length =
        pre.length + (1 + q.length + ws.length) from by omega,
        ← List.drop_drop, List.drop_left]
      rw [show (1 : Nat) + q.length + ws.length =
        ((q ++ ws).length) + 1 from by
          simp only [List.length_append]; omega]
      rw [List.drop_succ_cons, show q ++ (ws ++ rest) =
        (q ++ ws) ++ rest from (List.append_assoc q ws rest).symm,
        List.drop_left]
    have hdm : l.drop (pre.length + m) =
        (c :: (q ++ (ws ++ rest))).drop m := by
      rw [← List.drop_drop, hdropi]
    rw [hdp, hdm, htrim]

/-- C2: `findInternalSentenceSplit` returns the offset just past the last
(rightmost) spec-level boundary — a sentence terminator, optionally followed
by a closing quote, followed by whitespace — whose remaining trimmed text
has at least `MIN_REMAINING_CHARS` (15) characters, and `-1` when no
boundary qualifies; and on `"Hello there. Yes it is. Ok"` no boundary
qualifies (both remainders are shorter than 15), so the result is `-1`. -/
theorem findInternalSentenceSplit_spec :
    (∀ t : List Char,
      (findInternalSentenceSplit t = -1 ∧
        ∀ p : Nat, SpecBoundary t p → ¬ QualAt t p) ∨
      (∃ p : Nat, findInternalSentenceSplit t = (p : Int) ∧
        SpecBoundary t p ∧ QualAt t p ∧
        ∀ q : Nat, SpecBoundary t q → QualAt t q → q ≤ p)) ∧
    findInternalSentenceSplit (String.data "Hello there. Yes it is. Ok") =
      -1 := by
  refine ⟨?_, by decide⟩
  intro t
  rcases findInternalSentenceSplit_cases t with ⟨hval, hnone⟩ | ⟨p, hval, hcp, hqp, hmax⟩
  · left
    refine ⟨hval, ?_⟩
    intro p hsb hq
    rcases candAt_of_specBoundary hsb with ⟨pm, hcpm, -, htrim⟩
    have hqm : QualAt t pm := by
      unfold QualAt at hq ⊢
      rw [← htrim]
      exact hq
    exact hnone pm hcpm hqm
  · right
    refine ⟨p, hval, specBoundary_of_candAt hcp, hqp, ?_⟩
    intro q hsb hq
    rcases candAt_of_specBoundary hsb with ⟨qm, hcqm, hleq, htrim⟩
    have hqm : QualAt t qm := by
      unfold QualAt at hq ⊢
      rw [← htrim]
      exact hq
    exact le_trans hleq (hmax qm hcqm hqm)

/-! ### Boundary commit -/

/-- A positive scanner result is a qualifying candidate, so the remaining
text past it is at least `MIN_REMAINING_CHARS` long; in particular the
split offset lies strictly inside the text. -/
lemma findSplit_pos_facts {l : List Char} {p : Nat}
    (hsplit : findInternalSentenceSplit l = (p : Int)) (hp : 0 < p) :
    QualAt l p ∧ p + MIN_REMAINING_CHARS ≤ l.length := by
  rcases findInternalSentenceSplit_cases l with ⟨hval, -⟩ | ⟨p0, hval, -, hq0, -⟩
  · rw [hval] at hsplit
    exact absurd hsplit.symm (by
      intro h
      have : (0 : Int) ≤ (p : Int) := by positivity
      omega)
  · rw [hval] at hsplit
    have hpp : p0 = p := by exact_mod_cast hsplit
    subst hpp
    refine ⟨hq0, ?_⟩
    have hq0' := hq0
    unfold QualAt at hq0'
    have hlen := trimChars_length_le (l.drop p0)
    rw [List.length_drop] at hlen
    have hminpos : 1 ≤ MIN_REMAINING_CHARS := by decide
    omega

/-- C1: when a result is handled while not finalizing, with at least
`MIN_COMMIT_SAMPLES` (10 s at 16 kHz) of audio since the last commit and a
positive sentence split at offset `p` in the trimmed text, the handler
appends the trimmed prefix `text[0:p]` to the committed text with the
blank-line join (the prefix is never empty under these hypotheses), sets
the live text to the trimmed suffix `text[p:]`, keeps exactly the trailing
`ceil(bufLen * (1 - p/textLen))` samples of the rolling buffer, sets
`lastCommitSamples` to `totalSamples`, clears the queued flag, resets the
throttle timer, and dispatches nothing. -/
theorem boundary_commit (s : Session) (text : List Char) (now : Nat)
    (p : Nat) (hfin : s.shouldFinalize = false)
    (henough : MIN_COMMIT_SAMPLES ≤ s.totalSamples - s.lastCommitSamples)
    (hsplit : findInternalSentenceSplit (trimChars text) = (p : Int))
    (hp : 0 < p) :
    handleComplete s text now =
      ({ s with
        busy := false
        outstanding := s.outstanding - 1
        committedText := joinCommit s.committedText
          (trimChars ((trimChars text).take p))
        liveText := trimChars ((trimChars text).drop p)
        buffer := jsSliceLast s.buffer
          (ceilKeep s.buffer.length p (trimChars text).length)
        lastCommitSamples := s.totalSamples
        queued := false
        lastInferenceAt := now }, none) ∧
    trimChars ((trimChars text).take p) ≠ [] ∧
    jsSliceLast s.buffer (ceilKeep s.buffer.length p (trimChars text).length)
      = s.buffer.drop (s.buffer.length -
          ceilKeep s.buffer.length p (trimChars text).length) ∧
    (s.buffer ≠ [] →
      1 ≤ ceilKeep s.buffer.length p (trimChars text).length ∧
      ceilKeep s.buffer.length p (trimChars text).length ≤
        s.buffer.length) := by
  rcases findSplit_pos_facts hsplit hp with ⟨-, hplen⟩
  have hL : 0 < (trimChars text).length := by
    have : 0 < MIN_REMAINING_CHARS := by decide
    omega
  have hpL : p < (trimChars text).length := by
    have : 0 < MIN_REMAINING_CHARS := by decide
    omega
  have hkeep : ∀ B : Nat, 1 ≤ B →
      1 ≤ ceilKeep B p (trimChars text).length ∧
      ceilKeep B p (trimChars text).length ≤ B := by
    intro B hB
    unfold ceilKeep
    rw [if_neg (by omega)]
    set L := (trimChars text).length with hLdef
    constructor
    · rw [Nat.le_div_iff_mul_le hL]
      have h1 : 1 * 1 ≤ B * (L - p) :=
        Nat.mul_le_mul hB (by omega)
      omega
    · have hlt : B * (L - p) + (L - 1) < (B + 1) * L := by
        have h2 : B * (L - p) ≤ B * L :=
          Nat.mul_le_mul_left B (by omega)
        have h3 : (B + 1) * L = B * L + L := by ring
        omega
      have hdiv := (Nat.div_lt_iff_lt_mul hL).2 hlt
      omega
  have hcommit : trimChars ((trimChars text).take p) ≠ [] := by
    have htne : trimChars text ≠ [] := by
      intro h0
      rw [h0] at hpL
      simp at hpL
    rw [Ne, trimChars_eq_nil_iff]
    intro hall
    cases ht : trimChars text with
    | nil => exact htne ht
    | cons y ys =>
      have hy : isWs y = false := trimChars_head_not_ws text (by rw [ht]; rfl)
      have hmem : y ∈ (trimChars text).take p := by
        obtain ⟨m, rfl⟩ : ∃ m, p = m + 1 := ⟨p - 1, by omega⟩
        rw [ht]
        simp
      rw [hall y hmem] at hy
      exact Bool.noConfusion hy
  have hslice : jsSliceLast s.buffer
      (ceilKeep s.buffer.length p (trimChars text).length) =
      s.buffer.drop (s.buffer.length -
        ceilKeep s.buffer.length p (trimChars text).length) := by
    cases hb : s.buffer with
    | nil =>
      unfold jsSliceLast
      split <;> simp
    | cons b bs =>
      have hB : 1 ≤ (b :: bs).length := by simp
      rcases hkeep (b :: bs).length hB with ⟨hk1, -⟩
      unfold jsSliceLast
      rw [if_neg (by omega)]
  refine ⟨?_, hcommit, hslice, fun hbne => hkeep s.buffer.length (by
    cases hbb : s.buffer with
    | nil => exact absurd hbb hbne
    | cons b bs => simp)⟩
  unfold handleComplete
  dsimp only
  rw [if_pos (by simp [hfin])]
  rw [hsplit]
  rw [if_pos ⟨henough, by exact_mod_cast hp⟩]
  rw [Int.toNat_natCast]
  rw [if_pos hcommit]

/-- Witness for C1: a session 12.5 s past its last commit receiving
"This is a test. Still talking to you" commits the first sentence, keeps
the live tail, and trims the ten-sample buffer to its trailing
`ceil(10 * (1 - 16/36)) = 6` samples. -/
theorem boundary_commit_witness :
    handleComplete { initSession with totalSamples := 200000, buffer := [1, 2, 3, 4, 5, 6, 7, 8, 9, 10] } (String.data "This is a test. Still talking to you") 9 =
      ({ initSession with totalSamples := 200000, committedText := String.data "This is a test.", liveText := String.data "Still talking to you", buffer := [5, 6, 7, 8, 9, 10], lastCommitSamples := 200000, lastInferenceAt := 9 }, none) := by
  have h := (boundary_commit
    { initSession with totalSamples := 200000, buffer := [1, 2, 3, 4, 5, 6, 7, 8, 9, 10] }
    (String.data "This is a test. Still talking to you") 9 16 rfl
    (by decide) (by decide) (by decide)).1
  rw [h]
  rfl

end Transcription
